import Mathlib

/-!
Verification of the flags type generated by the `tiny_bit_flags!` declarative
expansion (src/src/lib.rs).  For a declaration
`struct $BitFlags: $T { const $Flag = $value; ... }` the expansion emits a
tuple struct `$BitFlags($T)` and, for each declared flag, three methods
(lib.rs lines 127-135):

  const fn is_<flag>(&self) -> bool { self.0 & $value != 0 }
  const fn set_<flag>(&mut self)    { self.0 |= $value }
  const fn clear_<flag>(&mut self)  { self.0 &= !$value }

We embed the generated artifact shallowly: the backing unsigned integer type
`T` of width `w` becomes `Nat` values below `2 ^ w`; the flag value `$value`
is a parameter `v`; the borrowed/mutated receiver becomes explicit state
passing on the wrapper structure.  `|` and `&` on a fixed-width unsigned
cannot overflow, so `Nat.lor`/`Nat.land` model them exactly on in-range
operands; Rust `!` (bitwise complement on `w` bits) is XOR with the all-ones
word `2 ^ w - 1`.
-/

namespace TinyBitFlags

/-- Rust bitwise complement `!v` on a `w`-bit unsigned integer: XOR with the
all-ones pattern `2 ^ w - 1`. -/
def rustNot (w v : Nat) : Nat := (2 ^ w - 1) ^^^ v

/-- The generated tuple struct `$vis struct $BitFlags($vis $T);`
(lib.rs line 117): a bare wrapper holding the single backing integer.
`raw` is the tuple field `.0`.  Construction performs no validation. -/
structure BitFlags where
  raw : Nat
deriving DecidableEq

/-- Generated method `is_<flag>` (lib.rs lines 127-129):
`self.0 & $value != 0`.  The receiver is `&self`, so the method returns the
boolean together with the untouched state. -/
def is_flag (v : Nat) (s : BitFlags) : Bool × BitFlags :=
  (s.raw &&& v != 0, s)

/-- Generated method `set_<flag>` (lib.rs lines 130-132): `self.0 |= $value`. -/
def set_flag (v : Nat) (s : BitFlags) : BitFlags :=
  ⟨s.raw ||| v⟩

/-- Generated method `clear_<flag>` (lib.rs lines 133-135):
`self.0 &= !$value`, with `!` taken on the `w`-bit backing type. -/
def clear_flag (w v : Nat) (s : BitFlags) : BitFlags :=
  ⟨s.raw &&& rustNot w v⟩

/-- Bits of the `w`-bit complement: position `i` is the negation of `v`'s bit
inside the width, and clear outside it. -/
theorem testBit_rustNot (w v i : Nat) :
    (rustNot w v).testBit i = (decide (i < w) ^^ v.testBit i) := by
  simp [rustNot, Nat.testBit_xor, Nat.testBit_two_pow_sub_one]

/-- A set bit of an in-range value lies inside the width. -/
theorem testBit_true_lt_width {w r i : Nat} (hr : r < 2 ^ w)
    (h : r.testBit i = true) : i < w := by
  by_contra hge
  have hlt : r < 2 ^ i :=
    lt_of_lt_of_le hr (Nat.pow_le_pow_right (by decide) (Nat.le_of_not_lt hge))
  rw [Nat.testBit_lt_two_pow hlt] at h
  exact Bool.false_ne_true h

/-- C1: for every flag value `v` and raw value `r`, `is_flag` returns true
exactly when `r &&& v ≠ 0`; it is an AND test, so if `v` has several bits set
the method returns true as soon as any one of those bits is present in `r`. -/
theorem is_flag_and_semantics (v r : Nat) :
    ((is_flag v ⟨r⟩).1 = true ↔ r &&& v ≠ 0) ∧
    (∀ i, v.testBit i = true → r.testBit i = true → (is_flag v ⟨r⟩).1 = true) := by
  constructor
  · simp [is_flag]
  · intro i hv hr
    have hb : (r &&& v).testBit i = true := by
      simp [Nat.testBit_and, hv, hr]
    have hne : r &&& v ≠ 0 := by
      intro h0
      rw [h0, Nat.zero_testBit] at hb
      exact Bool.false_ne_true hb
    simp [is_flag, hne]

theorem is_flag_and_semantics_witness :
    Nat.testBit 3 0 = true ∧ Nat.testBit 5 0 = true ∧
    (is_flag 3 ⟨5⟩).1 = true :=
  ⟨by decide, by decide, (is_flag_and_semantics 3 5).2 0 (by decide) (by decide)⟩

/-- C2 counterexample: with a flag declared with value `0` (the expansion
accepts any literal, including `0`), `set_flag` leaves the raw value at
`r ||| 0` but `is_flag` afterwards returns false, not true as claimed. -/
theorem set_flag_spec_cex :
    ¬ ((set_flag 0 ⟨0⟩).raw = (0 ||| 0) ∧
       (is_flag 0 (set_flag 0 ⟨0⟩)).1 = true) := by
  decide

/-- C2 (amended): for every flag value `v ≠ 0` and every raw value `r`,
`set_flag` stores exactly `r ||| v` and `is_flag` afterwards returns true.
The raw-value equation needs no side condition; the query needs `v ≠ 0`. -/
theorem set_flag_spec (v r : Nat) (hv : v ≠ 0) :
    (set_flag v ⟨r⟩).raw = (r ||| v) ∧
    (is_flag v (set_flag v ⟨r⟩)).1 = true := by
  refine ⟨rfl, ?_⟩
  obtain ⟨i, hi⟩ := Nat.ne_zero_implies_bit_true hv
  have hb : ((r ||| v) &&& v).testBit i = true := by
    simp [Nat.testBit_and, Nat.testBit_or, hi]
  have hne : (r ||| v) &&& v ≠ 0 := by
    intro h0
    rw [h0, Nat.zero_testBit] at hb
    exact Bool.false_ne_true hb
  simp [is_flag, set_flag, hne]

theorem set_flag_spec_witness :
    (1 : Nat) ≠ 0 ∧
    ((set_flag 1 ⟨2⟩).raw = (2 ||| 1) ∧
     (is_flag 1 (set_flag 1 ⟨2⟩)).1 = true) :=
  ⟨by decide, set_flag_spec 1 2 (by decide)⟩

/-- C3: for every in-range flag value `v` and raw value `r`, `clear_flag`
stores exactly `r &&& !v`, and `is_flag` immediately afterwards returns
false, since no bit of `v` survives the mask. -/
theorem clear_flag_spec (w v r : Nat) (hv : v < 2 ^ w) :
    (clear_flag w v ⟨r⟩).raw = r &&& rustNot w v ∧
    (is_flag v (clear_flag w v ⟨r⟩)).1 = false := by
  refine ⟨rfl, ?_⟩
  have h0 : (r &&& rustNot w v) &&& v = 0 := by
    apply Nat.eq_of_testBit_eq
    intro i
    simp only [Nat.testBit_and, testBit_rustNot, Nat.zero_testBit]
    cases hvi : v.testBit i with
    | false => simp
    | true =>
      have hiw : i < w := testBit_true_lt_width hv hvi
      simp [hiw]
  simp [is_flag, clear_flag, h0]

theorem clear_flag_spec_witness :
    (1 : Nat) < 2 ^ 32 ∧
    ((clear_flag 32 1 ⟨3⟩).raw = 3 &&& rustNot 32 1 ∧
     (is_flag 1 (clear_flag 32 1 ⟨3⟩)).1 = false) :=
  ⟨by norm_num, clear_flag_spec 32 1 3 (by norm_num)⟩

/-- C4: `set_flag` and `clear_flag` are idempotent: running either twice on
any raw value yields the same result as running it once. -/
theorem set_clear_idempotent (w v r : Nat) :
    set_flag v (set_flag v ⟨r⟩) = set_flag v ⟨r⟩ ∧
    clear_flag w v (clear_flag w v ⟨r⟩) = clear_flag w v ⟨r⟩ := by
  constructor
  · simp only [set_flag, BitFlags.mk.injEq]
    rw [Nat.lor_assoc, Nat.or_self]
  · simp only [clear_flag, BitFlags.mk.injEq]
    rw [Nat.land_assoc, Nat.and_self]

/-- C5: constructing the wrapper from any raw value and reading the tuple
field back returns exactly that value: construction is a lossless identity
wrap with no validation. -/
theorem construct_raw_identity (r : Nat) : (BitFlags.mk r).raw = r := rfl

/-- C6: with overlapping flags `ALL = 0b11` and `WRITABLE = 0b01`, a value
holding raw `0b01` answers `is_all` with true, because `0b01 &&& 0b11 ≠ 0`,
even though `0b01 &&& 0b11` is not all of `ALL`. -/
theorem overlapping_masks_scenario :
    (is_flag 0b11 ⟨0b01⟩).1 = true ∧
    0b01 &&& 0b11 ≠ 0 ∧ 0b01 &&& 0b11 ≠ 0b11 := by
  decide

/-- C7: the query `is_flag` has no side effect: the state it hands back is
exactly the state it was given, for every flag value and stored value. -/
theorem is_flag_preserves_state (v : Nat) (s : BitFlags) : (is_flag v s).2 = s :=
  rfl

/-- C8: no generated operation can fail at runtime: on every in-range input
each is a total function, the query yields a boolean and the mutations yield
raw values that stay within the backing width (no wrap, no panic). -/
theorem ops_total_in_range (w v r : Nat) (hv : v < 2 ^ w) (hr : r < 2 ^ w) :
    (∃ b : Bool, (is_flag v ⟨r⟩).1 = b) ∧
    (set_flag v ⟨r⟩).raw < 2 ^ w ∧
    (clear_flag w v ⟨r⟩).raw < 2 ^ w := by
  refine ⟨⟨_, rfl⟩, Nat.or_lt_two_pow hr hv, ?_⟩
  exact Nat.and_lt_two_pow r (Nat.xor_lt_two_pow (by omega) hv)

theorem ops_total_in_range_witness :
    (1 : Nat) < 2 ^ 8 ∧ (5 : Nat) < 2 ^ 8 ∧
    (set_flag 1 ⟨5⟩).raw < 2 ^ 8 :=
  ⟨by decide, by decide, (ops_total_in_range 8 1 5 (by decide) (by decide)).2.1⟩

/-- C9: the mutations only touch bits inside the flag mask: every bit outside
`v` is unchanged by `set_flag` and `clear_flag`, and the answer of `is_flag`
for any mask disjoint from `v` is unchanged by either mutation. -/
theorem mutations_frame (w v r : Nat) (hv : v < 2 ^ w) (hr : r < 2 ^ w) :
    (∀ i, v.testBit i = false →
      (set_flag v ⟨r⟩).raw.testBit i = r.testBit i ∧
      (clear_flag w v ⟨r⟩).raw.testBit i = r.testBit i) ∧
    (∀ v2, v &&& v2 = 0 →
      (is_flag v2 (set_flag v ⟨r⟩)).1 = (is_flag v2 ⟨r⟩).1 ∧
      (is_flag v2 (clear_flag w v ⟨r⟩)).1 = (is_flag v2 ⟨r⟩).1) := by
  constructor
  · intro i hvi
    constructor
    · simp [set_flag, Nat.testBit_or, hvi]
    · simp only [clear_flag, Nat.testBit_and, testBit_rustNot, hvi]
      cases hri : r.testBit i with
      | false => simp
      | true =>
        have hiw : i < w := testBit_true_lt_width hr hri
        simp [hiw]
  · intro v2 hdisj
    have hbit : ∀ i, v.testBit i = false ∨ v2.testBit i = false := by
      intro i
      have := congrArg (fun x => Nat.testBit x i) hdisj
      simp only [Nat.testBit_and, Nat.zero_testBit, Bool.and_eq_false_iff] at this
      exact this
    constructor
    · have hset : (r ||| v) &&& v2 = r &&& v2 := by
        apply Nat.eq_of_testBit_eq
        intro i
        simp only [Nat.testBit_and, Nat.testBit_or]
        rcases hbit i with h | h <;> simp [h]
      simp [is_flag, set_flag, hset]
    · have hclr : (r &&& rustNot w v) &&& v2 = r &&& v2 := by
        apply Nat.eq_of_testBit_eq
        intro i
        simp only [Nat.testBit_and, testBit_rustNot]
        cases hri : r.testBit i with
        | false => simp
        | true =>
          have hiw : i < w := testBit_true_lt_width hr hri
          rcases hbit i with h | h <;> simp [h, hiw]
      simp [is_flag, clear_flag, hclr]

theorem mutations_frame_witness :
    (1 : Nat) < 2 ^ 8 ∧ (5 : Nat) < 2 ^ 8 ∧ Nat.testBit 1 2 = false ∧
    (set_flag 1 ⟨5⟩).raw.testBit 2 = Nat.testBit 5 2 :=
  ⟨by decide, by decide, by decide,
    ((mutations_frame 8 1 5 (by decide) (by decide)).1 2 (by decide)).1⟩

/-- C10: on the same flag the later mutation absorbs the earlier one:
`set_flag` then `clear_flag` ends at `r &&& !v`, exactly as `clear_flag`
alone, and `clear_flag` then `set_flag` ends at `r ||| v`, exactly as
`set_flag` alone. -/
theorem later_mutation_absorbs (w v r : Nat) (hv : v < 2 ^ w) (hr : r < 2 ^ w) :
    (clear_flag w v (set_flag v ⟨r⟩)).raw = r &&& rustNot w v ∧
    (set_flag v (clear_flag w v ⟨r⟩)).raw = r ||| v := by
  constructor
  · show (r ||| v) &&& rustNot w v = r &&& rustNot w v
    apply Nat.eq_of_testBit_eq
    intro i
    simp only [Nat.testBit_and, Nat.testBit_or, testBit_rustNot]
    cases hvi : v.testBit i with
    | false => simp
    | true =>
      have hiw : i < w := testBit_true_lt_width hv hvi
      simp [hiw]
  · show (r &&& rustNot w v) ||| v = r ||| v
    apply Nat.eq_of_testBit_eq
    intro i
    simp only [Nat.testBit_or, Nat.testBit_and, testBit_rustNot]
    cases hvi : v.testBit i with
    | true => simp [hvi]
    | false =>
      cases hri : r.testBit i with
      | false => simp
      | true =>
        have hiw : i < w := testBit_true_lt_width hr hri
        simp [hiw]

theorem later_mutation_absorbs_witness :
    (1 : Nat) < 2 ^ 8 ∧ (5 : Nat) < 2 ^ 8 ∧
    (clear_flag 8 1 (set_flag 1 ⟨5⟩)).raw = 5 &&& rustNot 8 1 :=
  ⟨by decide, by decide, (later_mutation_absorbs 8 1 5 (by decide) (by decide)).1⟩

end TinyBitFlags
